import Mathlib

set_option maxHeartbeats 1000000

/-!
A verification development for the fetch-user-environment editor
extension (src/extension.ts): the settings diff engine (compareUpdate,
compareRemoteSettings), the defaults merger (compareDefaultSettings),
the settings writer (updateSettings), the settings reader filter
(readSettingsFile), the extension reconciliation loop
(installNewExtensions), the settings-fetch orchestration
(compareSettings) and the path-confirmation control flow of
fetchExtensions / fetchSettings.

JSON documents parsed from settings files are modelled by the inductive
type JVal; JavaScript property access, own-property tests and for-in key
enumeration over such values are modelled by jsGet, jsHasOwn and jsKeys.
A thrown TypeError (property access on null, as compareUpdate can do
when one side holds null and the other a non-empty object) is modelled
as Except.error ().
-/

inductive JVal where
  | null
  | bool (b : Bool)
  | num (n : Int)
  | str (s : String)
  | arr (elems : List JVal)
  | obj (fields : List (String × JVal))

mutual

/-- Executable structural size of a JSON value, used to bound the
recursion depth of the diff. -/
def jsSize : JVal → Nat
  | .null => 1
  | .bool _ => 1
  | .num _ => 1
  | .str _ => 1
  | .arr xs => 1 + jsSizeL xs
  | .obj fs => 1 + jsSizeP fs

/-- Size of an array body. -/
def jsSizeL : List JVal → Nat
  | [] => 1
  | v :: vs => 1 + jsSize v + jsSizeL vs

/-- Size of an object body. -/
def jsSizeP : List (String × JVal) → Nat
  | [] => 1
  | q :: qs => 1 + jsSize q.2 + jsSizeP qs

end

/-- Whether a value is the JSON null. -/
def isNull : JVal → Bool
  | .null => true
  | _ => false

/-- JavaScript strict equality a === b restricted to the case the diff
uses it in, where the right operand is a non-object value (boolean,
number or string): true exactly for two primitives of the same type
with equal payloads. -/
def strictEqScalar : JVal → JVal → Bool
  | .bool a, .bool b => a == b
  | .num a, .num b => a == b
  | .str a, .str b => a == b
  | _, _ => false

/-- Association-list lookup: the value of the first binding of key k,
modelling property read on a plain JavaScript object. -/
def lookupJ (m : List (String × JVal)) (k : String) : Option JVal :=
  (m.find? (fun q => q.1 == k)).map Prod.snd

/-- Own-property test on a plain JavaScript object (hasOwnProperty). -/
def hasOwnL (m : List (String × JVal)) (k : String) : Bool :=
  m.any (fun q => q.1 == k)

/-- typeof x === "object" for JSON values: true exactly for objects,
arrays and null. -/
def isObjectType : JVal → Bool
  | .obj _ => true
  | .arr _ => true
  | .null => true
  | _ => false

/-- The own enumerable property keys of a value, in for-in order:
field names for objects, index strings for arrays and strings, nothing
for primitives and null. -/
def jsKeys : JVal → List String
  | .obj fs => fs.map Prod.fst
  | .arr xs => (List.range xs.length).map (fun i => toString i)
  | .str s => (List.range s.toList.length).map (fun i => toString i)
  | _ => []

/-- Property read v[k] on a JSON value (undefined is none). Arrays and
strings expose their index properties and length; primitives and null
have no properties. -/
def jsGet : JVal → String → Option JVal
  | .obj fs, k => lookupJ fs k
  | .arr xs, k =>
    if k == "length" then some (.num xs.length)
    else
      match (List.range xs.length).find? (fun i => toString i == k) with
      | some i => xs.get? i
      | none => none
  | .str s, k =>
    if k == "length" then some (.num s.toList.length)
    else
      match (List.range s.toList.length).find? (fun i => toString i == k) with
      | some i => (s.toList.get? i).map (fun ch => JVal.str (String.mk [ch]))
      | none => none
  | _, _ => none

/-- hasOwnProperty on a JSON value (with primitive receivers boxed, as
in JavaScript). -/
def jsHasOwn : JVal → String → Bool
  | .obj fs, k => hasOwnL fs k
  | .arr xs, k => k == "length" || (List.range xs.length).any (fun i => toString i == k)
  | .str s, k => k == "length" || (List.range s.toList.length).any (fun i => toString i == k)
  | _, _ => false

/-- Single-key Object.assign target[k] = v: replaces the value in place
when the key exists (keeping insertion order), appends otherwise. -/
def jsAssign (m : List (String × JVal)) (k : String) (v : JVal) : List (String × JVal) :=
  if m.any (fun q => q.1 == k) then m.map (fun q => if q.1 == k then (k, v) else q)
  else m ++ [(k, v)]

/-- The third loop of compareUpdate, iterating the keys of compare in
order: a value of typeof object recurses (through f); any reported
nested difference, or a strictly unequal non-object value, returns the
whole compare subtree. A recursion into an undefined base value models
the JavaScript behaviour exactly: it returns the empty object when the
compare value has no enumerable keys and throws otherwise. -/
def compareScan (f : JVal → JVal → Except Unit JVal) (base compare : JVal) : List String → Except Unit JVal
  | [] => .ok (JVal.obj [])
  | p :: rest =>
    match jsGet compare p with
    | none => compareScan f base compare rest
    | some c =>
      if isObjectType c then
        match jsGet base p with
        | none => if jsKeys c = [] then compareScan f base compare rest else .error ()
        | some b =>
          match f b c with
          | .error e => .error e
          | .ok diff => if jsKeys diff = [] then compareScan f base compare rest else .ok compare
      else
        match jsGet base p with
        | some b => if strictEqScalar b c then compareScan f base compare rest else .ok compare
        | none => .ok compare

/-- Fuelled translation of FetchEnvironment.compareUpdate. The first
two guards are the two quick-win loops: a key of compare undefined or
not own in base (or the symmetric condition) returns the whole compare
subtree; reading a property of a null receiver while another side has
keys throws (error). The recursion depth is bounded by the size of
compare, so the fuel supplied by the compareUpdate wrapper is always
sufficient. -/
def compareUpdateF : Nat → JVal → JVal → Except Unit JVal
  | 0, _, _ => .error ()
  | fuel + 1, base, compare =>
    if !(jsKeys compare).isEmpty && isNull base then .error ()
    else if (jsKeys compare).any (fun p => (jsGet base p).isNone || !(jsHasOwn base p)) then .ok compare
    else if !(jsKeys base).isEmpty && isNull compare then .error ()
    else if (jsKeys base).any (fun p => (jsGet compare p).isNone || !(jsHasOwn compare p)) then .ok compare
    else compareScan (fun b c => compareUpdateF fuel b c) base compare (jsKeys compare)

/-- FetchEnvironment.compareUpdate(base, compare): either the whole
compare subtree, or the empty object when no difference is reported, or
a thrown TypeError. -/
def compareUpdate (base compare : JVal) : Except Unit JVal :=
  compareUpdateF (jsSize compare) base compare

/-- The decision compareRemoteSettings makes for one remote key p:
ok true when the singleton comparison reports a difference (so the
remote value is copied into the update set), ok false when not, error
when compareUpdate throws. -/
def keyDiffers (l r : List (String × JVal)) (p : String) : Except Unit Bool :=
  match lookupJ r p with
  | none => .ok false
  | some rv =>
    match lookupJ l p with
    | none => .ok true
    | some lv =>
      match compareUpdate (JVal.obj [(p, lv)]) (JVal.obj [(p, rv)]) with
      | .error e => .error e
      | .ok res => if jsKeys res = [] then .ok false else .ok true

/-- The per-key loop of FetchEnvironment.compareRemoteSettings: for
each key p of the remote document it builds the singleton wrappers
base = obj [(p, local[p])] and compare = obj [(p, remote[p])], runs
compareUpdate, and assigns the whole result into the accumulated update
set when it has any key. A local value that is undefined makes the
first guard of compareUpdate return compare at once, which is the
lookup-none branch here. -/
def settingsDiffGo (l r : List (String × JVal)) : List (String × JVal) → List String → Except Unit (List (String × JVal))
  | acc, [] => .ok acc
  | acc, p :: rest =>
    match lookupJ r p with
    | none => settingsDiffGo l r acc rest
    | some rv =>
      match lookupJ l p with
      | none => settingsDiffGo l r (jsAssign acc p rv) rest
      | some lv =>
        match compareUpdate (JVal.obj [(p, lv)]) (JVal.obj [(p, rv)]) with
        | .error e => .error e
        | .ok res =>
          if jsKeys res = [] then settingsDiffGo l r acc rest
          else settingsDiffGo l r (jsAssign acc p rv) rest

/-- The settings delta FetchEnvironment.compareRemoteSettings computes
from an already-read local and remote document. -/
def settingsDiff (l r : List (String × JVal)) : Except Unit (List (String × JVal)) :=
  settingsDiffGo l r [] (r.map Prod.fst)

/-- FetchEnvironment.updateSettings: Object.assign of the new settings
into the local document, key by key in delta order, then written back.
File-system errors of the write are outside this model. -/
def updateSettings (l delta : List (String × JVal)) : List (String × JVal) :=
  delta.foldl (fun acc q => jsAssign acc q.1 q.2) l

/-- The defaults loop of FetchEnvironment.compareDefaultSettings: for
each key of the defaults document, the key/value is added only when the
local document does not have the key as an own property. -/
def mergeDefaultsGo (d l : List (String × JVal)) : List (String × JVal) → List String → List (String × JVal)
  | acc, [] => acc
  | acc, p :: rest =>
    match lookupJ d p with
    | none => mergeDefaultsGo d l acc rest
    | some v =>
      if hasOwnL l p then mergeDefaultsGo d l acc rest
      else mergeDefaultsGo d l (jsAssign acc p v) rest

/-- The delta computed by FetchEnvironment.compareDefaultSettings from
an already-read defaults and local document. -/
def mergeDefaults (d l : List (String × JVal)) : List (String × JVal) :=
  mergeDefaultsGo d l [] (d.map Prod.fst)

/-- The contribution of one defaults key to the defaults delta: its
first binding in the defaults document, unless the local document
already has the key. Used to state what mergeDefaultsGo accumulates. -/
def mergeKeyPick (d l : List (String × JVal)) (p : String) : Option (String × JVal) :=
  match lookupJ d p with
  | none => none
  | some v => if hasOwnL l p = true then none else some (p, v)

/-- prop.startsWith("fetchUserEnv"), written as a character-list test
so that it evaluates by kernel reduction. -/
def startsWithFUE (k : String) : Bool :=
  "fetchUserEnv".toList.isPrefixOf k.toList

/-- The filter of FetchEnvironment.readSettingsFile (filter = true):
every top-level key starting with fetchUserEnv is deleted from the
parsed document before it is returned. -/
def filterSettings (doc : List (String × JVal)) : List (String × JVal) :=
  doc.filter (fun q => !(startsWithFUE q.1))

/-- FetchEnvironment.compareRemoteSettings reads both documents through
readSettingsFile with the default filter, then diffs them. -/
def compareRemoteSettingsRun (rawLocal rawRemote : List (String × JVal)) : Except Unit (List (String × JVal)) :=
  settingsDiff (filterSettings rawLocal) (filterSettings rawRemote)

/-- A remote extension directory, as FetchEnvironment.installNewExtensions
sees it after reading its package.json: whether the package.json file
exists, and the publisher, name and version fields. Parse failures
abort the whole pass with a JSONError and are outside this decision
function. -/
structure ExtensionCandidate where
  hasPackageFile : Bool
  publisher : String
  name : String
  version : String
  deriving DecidableEq

/-- The extension identity json.publisher + "." + json.name. -/
def extId (c : ExtensionCandidate) : String :=
  c.publisher ++ "." ++ c.name

/-- Lookup in the installed-versions map built by getInstalledExtensions. -/
def lookupVersion (installed : List (String × String)) (id : String) : Option String :=
  (installed.find? (fun q => q.1 == id)).map Prod.snd

/-- The decision loop of FetchEnvironment.installNewExtensions over the
remote candidate directories, parametric in the external semver
comparator (the semver-compare package): a candidate is copied when its
package.json exists and the installed version is either absent or
compares strictly less than the candidate version. -/
def installNewExtensions (cmp : String → String → Int) (installed : List (String × String)) (cands : List ExtensionCandidate) : List ExtensionCandidate :=
  cands.filter (fun c =>
    c.hasPackageFile &&
      (match lookupVersion installed (extId c) with
       | none => true
       | some lv => decide (cmp lv c.version < 0)))

/-- FetchEnvironment.compareSettings: compareDefaultSettings runs
first; compareRemoteSettings runs only if it returned normally, and the
results are combined with JavaScript or. The second component of the
result records whether the remote comparison step was ever entered. -/
def compareSettingsRun {ε : Type} (defaultStep : Except ε Bool) (remoteStep : Unit → Except ε Bool) : Except ε Bool × Bool :=
  match defaultStep with
  | .error e => (.error e, false)
  | .ok a =>
    match remoteStep () with
    | .error e => (.error e, true)
    | .ok b => (.ok (a || b), true)

/-- User-visible interactions issued during path confirmation. -/
inductive UIEvent where
  | inputBox
  | warningMessage
  | errorDialog
  deriving DecidableEq

/-- The three choices of the cannot-access error dialog; ignoreDismiss
also stands for dismissing the dialog, which takes the default case. -/
inductive PathDialogChoice where
  | tryAgain
  | reenterPath
  | ignoreDismiss
  deriving DecidableEq

/-- How the path-validation loop ends. -/
inductive PathOutcome where
  | abandoned
  | confirmed (p : String)
  deriving DecidableEq

/-- The path-validation while loop shared by fetchExtensions and
fetchSettings, translated iteration by iteration. configured = "" is
the falsy unset path. inputs are the successive input-box answers
("" is a cancelled or empty entry) and dialogs the successive
error-dialog choices; an exhausted list behaves as cancel / dismiss.
Configuration-save errors inside getRemote...Path are outside this
model. Returns the trace of user interactions and the outcome. -/
def validatePathLoop (checkPath : String → Bool) (prompt : Bool) (dialogs : List PathDialogChoice) (configured : String) (reenter : Bool) (inputs : List String) : List UIEvent × PathOutcome :=
  if configured = "" ∨ reenter = true then
    if prompt = false ∧ reenter = false then ([], .abandoned)
    else
      match inputs with
      | [] => ([.inputBox, .warningMessage], .abandoned)
      | resp :: inputs2 =>
        if resp = "" then ([.inputBox, .warningMessage], .abandoned)
        else
          if checkPath resp then ([.inputBox], .confirmed resp)
          else
            match dialogs with
            | [] => ([.inputBox, .errorDialog], .abandoned)
            | choice :: rest =>
              match choice with
              | .tryAgain =>
                let next := validatePathLoop checkPath prompt rest resp false inputs2
                (.inputBox :: .errorDialog :: next.1, next.2)
              | .reenterPath =>
                let next := validatePathLoop checkPath prompt rest resp true inputs2
                (.inputBox :: .errorDialog :: next.1, next.2)
              | .ignoreDismiss => ([.inputBox, .errorDialog], .abandoned)
  else
    if checkPath configured then ([], .confirmed configured)
    else
      match dialogs with
      | [] => ([.errorDialog], .abandoned)
      | choice :: rest =>
        match choice with
        | .tryAgain =>
          let next := validatePathLoop checkPath prompt rest configured false inputs
          (.errorDialog :: next.1, next.2)
        | .reenterPath =>
          let next := validatePathLoop checkPath prompt rest configured true inputs
          (.errorDialog :: next.1, next.2)
        | .ignoreDismiss => ([.errorDialog], .abandoned)

/-- The path-validation phase of FetchEnvironment.fetchExtensions:
checkPath is fs.existsSync on the remote extension path. -/
def fetchExtensionsValidate (pathExists : String → Bool) (prompt : Bool) (configured : String) (inputs : List String) (dialogs : List PathDialogChoice) : List UIEvent × PathOutcome :=
  validatePathLoop pathExists prompt dialogs configured false inputs

/-- The remote-settings path-validation phase of
FetchEnvironment.fetchSettings: the existence check is on
path.join(remoteSettingsPath, "settings.json"). -/
def fetchSettingsValidate (pathExists : String → Bool) (prompt : Bool) (configured : String) (inputs : List String) (dialogs : List PathDialogChoice) : List UIEvent × PathOutcome :=
  validatePathLoop (fun p => pathExists (p ++ "/settings.json")) prompt dialogs configured false inputs

theorem jsSize_pos (v : JVal) : 0 < jsSize v := by
  cases v <;> simp [jsSize]

theorem jsSizeP_lt_of_mem {q : String × JVal} {fs : List (String × JVal)} (h : q ∈ fs) :
    jsSize q.2 < jsSizeP fs := by
  induction fs with
  | nil => cases h
  | cons a rest ih =>
    rcases List.mem_cons.mp h with h | h
    · subst h; simp [jsSizeP]; omega
    · have := ih h; simp [jsSizeP]; omega

theorem jsSizeL_lt_of_mem {v : JVal} {xs : List JVal} (h : v ∈ xs) :
    jsSize v < jsSizeL xs := by
  induction xs with
  | nil => cases h
  | cons a rest ih =>
    rcases List.mem_cons.mp h with h | h
    · subst h; simp [jsSizeL]; omega
    · have := ih h; simp [jsSizeL]; omega

theorem jsGet_size_lt {v u : JVal} {k : String} (h : jsGet v k = some u)
    (ho : isObjectType u = true) : jsSize u < jsSize v := by
  cases v with
  | null => simp [jsGet] at h
  | bool b => simp [jsGet] at h
  | num n => simp [jsGet] at h
  | str s =>
    simp only [jsGet] at h
    by_cases hl : ((k == "length") = true)
    · rw [if_pos hl] at h
      injection h with h
      rw [← h] at ho
      simp [isObjectType] at ho
    · rw [if_neg hl] at h
      cases hf : (List.range s.toList.length).find? (fun i => toString i == k) with
      | none => rw [hf] at h; exact absurd h (by simp)
      | some i =>
        rw [hf] at h
        have h2 : (s.toList.get? i).map (fun ch => JVal.str (String.mk [ch])) = some u := h
        cases hg : s.toList.get? i with
        | none => rw [hg] at h2; exact absurd h2 (by simp)
        | some ch =>
          rw [hg] at h2
          injection h2 with h2
          rw [← h2] at ho
          simp [isObjectType] at ho
  | arr xs =>
    simp only [jsGet] at h
    by_cases hl : ((k == "length") = true)
    · rw [if_pos hl] at h
      injection h with h
      rw [← h] at ho
      simp [isObjectType] at ho
    · rw [if_neg hl] at h
      cases hf : (List.range xs.length).find? (fun i => toString i == k) with
      | none => rw [hf] at h; exact absurd h (by simp)
      | some i =>
        rw [hf] at h
        have h2 : xs.get? i = some u := h
        have hm : u ∈ xs := List.get?_mem h2
        have := jsSizeL_lt_of_mem hm
        simp [jsSize]; omega
  | obj fs =>
    simp only [jsGet, lookupJ] at h
    cases hf : fs.find? (fun q => q.1 == k) with
    | none => rw [hf] at h; exact absurd h (by simp)
    | some q =>
      rw [hf] at h
      simp only [Option.map_some'] at h
      injection h with h
      have hm := List.mem_of_find?_eq_some hf
      have := jsSizeP_lt_of_mem hm
      rw [h] at this
      simp [jsSize]; omega

theorem jsGet_isSome_of_mem_keys {v : JVal} {p : String} (h : p ∈ jsKeys v) :
    (jsGet v p).isSome = true := by
  cases v with
  | null => cases h
  | bool b => cases h
  | num n => cases h
  | str s =>
    simp only [jsKeys, List.mem_map] at h
    obtain ⟨i, hi, rfl⟩ := h
    simp only [jsGet]
    by_cases hl : ((toString i == "length") = true)
    · rw [if_pos hl]; rfl
    · rw [if_neg hl]
      have hfind : ((List.range s.toList.length).find? (fun j => toString j == toString i)).isSome := by
        rw [List.find?_isSome]
        exact ⟨i, hi, by simp⟩
      obtain ⟨j, hj⟩ := Option.isSome_iff_exists.mp hfind
      rw [hj]
      have hjm := List.mem_of_find?_eq_some hj
      rw [List.mem_range] at hjm
      show ((s.toList.get? j).map (fun ch => JVal.str (String.mk [ch]))).isSome = true
      cases hg : s.toList.get? j with
      | some ch => rfl
      | none => rw [List.get?_eq_none] at hg; omega
  | arr xs =>
    simp only [jsKeys, List.mem_map] at h
    obtain ⟨i, hi, rfl⟩ := h
    simp only [jsGet]
    by_cases hl : ((toString i == "length") = true)
    · rw [if_pos hl]; rfl
    · rw [if_neg hl]
      have hfind : ((List.range xs.length).find? (fun j => toString j == toString i)).isSome := by
        rw [List.find?_isSome]
        exact ⟨i, hi, by simp⟩
      obtain ⟨j, hj⟩ := Option.isSome_iff_exists.mp hfind
      rw [hj]
      have hjm := List.mem_of_find?_eq_some hj
      rw [List.mem_range] at hjm
      show (xs.get? j).isSome = true
      cases hg : xs.get? j with
      | some u => rfl
      | none => rw [List.get?_eq_none] at hg; omega
  | obj fs =>
    simp only [jsKeys, List.mem_map] at h
    obtain ⟨q, hq, rfl⟩ := h
    simp only [jsGet, lookupJ]
    have hfind : (fs.find? (fun r => r.1 == q.1)).isSome := by
      rw [List.find?_isSome]
      exact ⟨q, hq, by simp⟩
    obtain ⟨x, hx⟩ := Option.isSome_iff_exists.mp hfind
    rw [hx]
    rfl

theorem jsHasOwn_of_mem_keys {v : JVal} {p : String} (h : p ∈ jsKeys v) :
    jsHasOwn v p = true := by
  cases v with
  | null => cases h
  | bool b => cases h
  | num n => cases h
  | str s =>
    simp only [jsKeys, List.mem_map] at h
    obtain ⟨i, hi, rfl⟩ := h
    simp only [jsHasOwn, Bool.or_eq_true, List.any_eq_true]
    exact Or.inr ⟨i, hi, by simp⟩
  | arr xs =>
    simp only [jsKeys, List.mem_map] at h
    obtain ⟨i, hi, rfl⟩ := h
    simp only [jsHasOwn, Bool.or_eq_true, List.any_eq_true]
    exact Or.inr ⟨i, hi, by simp⟩
  | obj fs =>
    simp only [jsKeys, List.mem_map] at h
    obtain ⟨q, hq, rfl⟩ := h
    simp only [jsHasOwn, hasOwnL, List.any_eq_true]
    exact ⟨q, hq, by simp⟩

theorem strictEqScalar_iff {b c : JVal} (hc : isObjectType c = false) :
    strictEqScalar b c = true ↔ b = c := by
  cases c <;> simp [isObjectType] at hc <;> cases b <;> simp [strictEqScalar]

theorem lookupJ_nil (k : String) : lookupJ [] k = none := rfl

theorem lookupJ_cons (a : String × JVal) (m : List (String × JVal)) (k : String) :
    lookupJ (a :: m) k = if a.1 = k then some a.2 else lookupJ m k := by
  by_cases h : a.1 = k
  · rw [if_pos h]
    simp [lookupJ, List.find?_cons_of_pos, h]
  · rw [if_neg h]
    simp only [lookupJ]
    rw [List.find?_cons_of_neg]
    simp [h]

theorem hasOwnL_iff_mem {m : List (String × JVal)} {k : String} :
    hasOwnL m k = true ↔ k ∈ m.map Prod.fst := by
  simp only [hasOwnL, List.any_eq_true, List.mem_map, beq_iff_eq]

theorem lookupJ_eq_none_iff {m : List (String × JVal)} {k : String} :
    lookupJ m k = none ↔ k ∉ m.map Prod.fst := by
  induction m with
  | nil => simp [lookupJ_nil]
  | cons a rest ih =>
    rw [lookupJ_cons]
    by_cases h : a.1 = k
    · simp [h]
    · simp only [if_neg h, ih, List.map_cons, List.mem_cons]
      constructor
      · intro hn hmem
        rcases hmem with hmem | hmem
        · exact h hmem.symm
        · exact hn hmem
      · intro hn hmem
        exact hn (Or.inr hmem)

theorem lookupJ_isSome_of_mem {m : List (String × JVal)} {k : String}
    (h : k ∈ m.map Prod.fst) : (lookupJ m k).isSome = true := by
  cases hl : lookupJ m k with
  | some v => rfl
  | none => exact absurd h (lookupJ_eq_none_iff.mp hl)

theorem lookupJ_some_mem {m : List (String × JVal)} {k : String} {v : JVal}
    (h : lookupJ m k = some v) : (k, v) ∈ m := by
  induction m with
  | nil => simp [lookupJ_nil] at h
  | cons a rest ih =>
    rw [lookupJ_cons] at h
    by_cases hk : a.1 = k
    · rw [if_pos hk] at h
      injection h with h
      have hav : (k, v) = a := by
        rw [← hk, ← h]
      rw [hav]
      exact List.mem_cons_self a rest
    · rw [if_neg hk] at h
      exact List.mem_cons_of_mem _ (ih h)

theorem lookupJ_of_mem_nodup {m : List (String × JVal)} {k : String} {v : JVal}
    (hnd : (m.map Prod.fst).Nodup) (h : (k, v) ∈ m) : lookupJ m k = some v := by
  induction m with
  | nil => cases h
  | cons a rest ih =>
    simp only [List.map_cons, List.nodup_cons] at hnd
    rw [lookupJ_cons]
    rcases List.mem_cons.mp h with h | h
    · rw [← h]
      simp
    · have ha : a.1 ≠ k := by
        intro hak
        exact hnd.1 (hak ▸ List.mem_map.mpr ⟨(k, v), h, rfl⟩)
      rw [if_neg ha]
      exact ih hnd.2 h

theorem map_fst_replace (m : List (String × JVal)) (k : String) (v : JVal) :
    (m.map (fun q => if q.1 == k then (k, v) else q)).map Prod.fst = m.map Prod.fst := by
  induction m with
  | nil => rfl
  | cons a rest ih =>
    by_cases h : ((a.1 == k) = true)
    · have hak : a.1 = k := beq_iff_eq.mp h
      simp only [List.map_cons, h, if_true, ih, hak]
      simp
    · simp only [List.map_cons, h, if_false, ih]
      simp

theorem jsAssign_keys (m : List (String × JVal)) (k : String) (v : JVal) :
    (jsAssign m k v).map Prod.fst =
      if hasOwnL m k = true then m.map Prod.fst else m.map Prod.fst ++ [k] := by
  simp only [jsAssign, hasOwnL]
  by_cases h : (m.any (fun q => q.1 == k) = true)
  · rw [if_pos h, if_pos h, map_fst_replace]
  · rw [if_neg h, if_neg h]
    simp

theorem lookupJ_replace_self {m : List (String × JVal)} {k : String} (v : JVal)
    (h : m.any (fun q => q.1 == k) = true) :
    lookupJ (m.map (fun q => if q.1 == k then (k, v) else q)) k = some v := by
  induction m with
  | nil => simp at h
  | cons a rest ih =>
    simp only [List.map_cons]
    by_cases ha : ((a.1 == k) = true)
    · rw [if_pos ha, lookupJ_cons]
      simp
    · rw [if_neg ha, lookupJ_cons]
      have hne : a.1 ≠ k := by
        intro hh
        exact ha (beq_iff_eq.mpr hh)
      rw [if_neg hne]
      apply ih
      simp only [List.any_cons, ha, Bool.false_or] at h
      exact h

theorem lookupJ_replace_ne (m : List (String × JVal)) {k k2 : String} (v : JVal)
    (hne : k2 ≠ k) :
    lookupJ (m.map (fun q => if q.1 == k then (k, v) else q)) k2 = lookupJ m k2 := by
  induction m with
  | nil => rfl
  | cons a rest ih =>
    simp only [List.map_cons]
    by_cases ha : ((a.1 == k) = true)
    · rw [if_pos ha, lookupJ_cons, lookupJ_cons]
      have hak : a.1 = k := beq_iff_eq.mp ha
      rw [if_neg (fun hh : k = k2 => hne (hh.symm)), if_neg (fun hh : a.1 = k2 => hne (hh ▸ hak))]
      exact ih
    · rw [if_neg ha, lookupJ_cons, lookupJ_cons]
      by_cases hk2 : a.1 = k2
      · rw [if_pos hk2, if_pos hk2]
      · rw [if_neg hk2, if_neg hk2]
        exact ih

theorem lookupJ_append_single_self {m : List (String × JVal)} {k : String} (v : JVal)
    (h : m.any (fun q => q.1 == k) = false) :
    lookupJ (m ++ [(k, v)]) k = some v := by
  induction m with
  | nil => rw [List.nil_append, lookupJ_cons]; simp
  | cons a rest ih =>
    simp only [List.any_cons, Bool.or_eq_false_iff] at h
    rw [List.cons_append, lookupJ_cons]
    have hne : a.1 ≠ k := by
      intro hh
      have h1 := h.1
      rw [hh] at h1
      simp at h1
    rw [if_neg hne]
    exact ih h.2

theorem lookupJ_append_single_ne (m : List (String × JVal)) {k k2 : String} (v : JVal)
    (hne : k2 ≠ k) : lookupJ (m ++ [(k, v)]) k2 = lookupJ m k2 := by
  induction m with
  | nil =>
    rw [List.nil_append, lookupJ_cons, lookupJ_nil]
    exact if_neg (fun hh : k = k2 => hne hh.symm)
  | cons a rest ih =>
    rw [List.cons_append, lookupJ_cons, lookupJ_cons]
    by_cases hk2 : a.1 = k2
    · rw [if_pos hk2, if_pos hk2]
    · rw [if_neg hk2, if_neg hk2]
      exact ih

theorem lookupJ_jsAssign_self (m : List (String × JVal)) (k : String) (v : JVal) :
    lookupJ (jsAssign m k v) k = some v := by
  simp only [jsAssign]
  by_cases h : (m.any (fun q => q.1 == k) = true)
  · rw [if_pos h]
    exact lookupJ_replace_self v h
  · rw [if_neg h]
    apply lookupJ_append_single_self
    cases hb : m.any (fun q => q.1 == k) with
    | true => exact absurd hb h
    | false => rfl

theorem lookupJ_jsAssign_ne (m : List (String × JVal)) {k k2 : String} (v : JVal)
    (hne : k2 ≠ k) : lookupJ (jsAssign m k v) k2 = lookupJ m k2 := by
  simp only [jsAssign]
  by_cases h : (m.any (fun q => q.1 == k) = true)
  · rw [if_pos h]
    exact lookupJ_replace_ne m v hne
  · rw [if_neg h]
    exact lookupJ_append_single_ne m v hne

theorem jsAssign_keys_nodup {m : List (String × JVal)} {k : String} {v : JVal}
    (h : (m.map Prod.fst).Nodup) : ((jsAssign m k v).map Prod.fst).Nodup := by
  rw [jsAssign_keys]
  by_cases hk : (hasOwnL m k = true)
  · rw [if_pos hk]
    exact h
  · rw [if_neg hk]
    rw [List.nodup_append]
    refine ⟨h, List.nodup_singleton _, ?_⟩
    intro a ha hb
    simp only [List.mem_singleton] at hb
    subst hb
    exact hk (hasOwnL_iff_mem.mpr ha)

theorem updateSettings_nil (l : List (String × JVal)) : updateSettings l [] = l := rfl

theorem updateSettings_cons (l : List (String × JVal)) (q : String × JVal) (d : List (String × JVal)) :
    updateSettings l (q :: d) = updateSettings (jsAssign l q.1 q.2) d := rfl

theorem updateSettings_lookup_not_mem {d : List (String × JVal)} {k : String}
    (h : k ∉ d.map Prod.fst) :
    ∀ l, lookupJ (updateSettings l d) k = lookupJ l k := by
  induction d with
  | nil => intro l; rfl
  | cons q rest ih =>
    intro l
    simp only [List.map_cons, List.mem_cons, not_or] at h
    rw [updateSettings_cons, ih h.2, lookupJ_jsAssign_ne l q.2 h.1]

theorem updateSettings_keys_incl {d : List (String × JVal)} :
    ∀ l k, k ∈ l.map Prod.fst → k ∈ (updateSettings l d).map Prod.fst := by
  induction d with
  | nil => intro l k hk; exact hk
  | cons q rest ih =>
    intro l k hk
    rw [updateSettings_cons]
    apply ih
    rw [jsAssign_keys]
    by_cases hq : (hasOwnL l q.1 = true)
    · rw [if_pos hq]; exact hk
    · rw [if_neg hq]; exact List.mem_append_left _ hk

theorem updateSettings_lookup_of_some {d : List (String × JVal)} {k : String} {v : JVal}
    (hnd : (d.map Prod.fst).Nodup) (h : lookupJ d k = some v) :
    ∀ l, lookupJ (updateSettings l d) k = some v := by
  induction d with
  | nil => simp [lookupJ_nil] at h
  | cons q rest ih =>
    intro l
    simp only [List.map_cons, List.nodup_cons] at hnd
    rw [lookupJ_cons] at h
    rw [updateSettings_cons]
    by_cases hk : q.1 = k
    · rw [if_pos hk] at h
      injection h with h
      have hnm : k ∉ rest.map Prod.fst := hk ▸ hnd.1
      rw [updateSettings_lookup_not_mem hnm, ← hk, ← h]
      exact lookupJ_jsAssign_self l q.1 q.2
    · rw [if_neg hk] at h
      exact ih hnd.2 h (jsAssign l q.1 q.2)

theorem compareScan_self (f : JVal → JVal → Except Unit JVal) (v : JVal)
    (hf : ∀ p c, jsGet v p = some c → isObjectType c = true → f c c = .ok (JVal.obj [])) :
    ∀ props, compareScan f v v props = .ok (JVal.obj []) := by
  intro props
  induction props with
  | nil => rfl
  | cons p rest ih =>
    cases hc : jsGet v p with
    | none => simp only [compareScan, hc]; exact ih
    | some c =>
      by_cases ho : (isObjectType c = true)
      · simp only [compareScan, hc, ho, if_true, hf p c hc ho, jsKeys, List.map_nil, if_pos]
        exact ih
      · have ho2 : isObjectType c = false := by
          cases hob : isObjectType c
          · rfl
          · exact absurd hob ho
        have hs : strictEqScalar c c = true := (strictEqScalar_iff ho2).mpr rfl
        simp only [compareScan, hc, ho2, Bool.false_eq_true, if_false, hs, if_true]
        exact ih

theorem compareScan_scalar (f : JVal → JVal → Except Unit JVal) (base compare : JVal)
    {p : String} {c b : JVal}
    (hc : jsGet compare p = some c) (ho : isObjectType c = false)
    (hb : jsGet base p = some b) (hbc : b ≠ c) :
    ∀ props, p ∈ props → ∀ d, compareScan f base compare props = .ok d → d = compare := by
  intro props
  induction props with
  | nil => intro h; cases h
  | cons q rest ih =>
    intro hmem d hrun
    by_cases hpq : q = p
    · subst hpq
      have hse : strictEqScalar b c = false := by
        cases hs : strictEqScalar b c
        · rfl
        · exact absurd ((strictEqScalar_iff ho).mp hs) hbc
      simp only [compareScan, hc, hb, ho, Bool.false_eq_true, if_false, hse] at hrun
      injection hrun with hrun
      exact hrun.symm
    · have hpm : p ∈ rest := by
        rcases List.mem_cons.mp hmem with h | h
        · exact absurd h.symm hpq
        · exact h
      cases hq : jsGet compare q with
      | none =>
        simp only [compareScan, hq] at hrun
        exact ih hpm d hrun
      | some cq =>
        by_cases hoq : (isObjectType cq = true)
        · simp only [compareScan, hq, hoq, if_true] at hrun
          cases hbq : jsGet base q with
          | none =>
            simp only [hbq] at hrun
            by_cases hk : (jsKeys cq = [])
            · rw [if_pos hk] at hrun
              exact ih hpm d hrun
            · rw [if_neg hk] at hrun
              exact Except.noConfusion hrun
          | some bq =>
            simp only [hbq] at hrun
            cases hfq : f bq cq with
            | error e =>
              simp only [hfq] at hrun
              exact Except.noConfusion hrun
            | ok diff =>
              simp only [hfq] at hrun
              by_cases hk : (jsKeys diff = [])
              · rw [if_pos hk] at hrun
                exact ih hpm d hrun
              · rw [if_neg hk] at hrun
                injection hrun with hrun
                exact hrun.symm
        · have hoq2 : isObjectType cq = false := by
            cases hob : isObjectType cq
            · rfl
            · exact absurd hob hoq
          simp only [compareScan, hq, hoq2, Bool.false_eq_true, if_false] at hrun
          cases hbq : jsGet base q with
          | none =>
            simp only [hbq] at hrun
            injection hrun with hrun
            exact hrun.symm
          | some bq =>
            simp only [hbq] at hrun
            by_cases hs : (strictEqScalar bq cq = true)
            · rw [if_pos hs] at hrun
              exact ih hpm d hrun
            · rw [if_neg hs] at hrun
              injection hrun with hrun
              exact hrun.symm

theorem compareUpdateF_self : ∀ (n : Nat) (v : JVal), jsSize v ≤ n → compareUpdateF n v v = .ok (JVal.obj []) := by
  intro n
  induction n with
  | zero =>
    intro v hv
    have := jsSize_pos v
    omega
  | succ n ih =>
    intro v hv
    have hg1 : (!(jsKeys v).isEmpty && isNull v) = false := by
      cases v <;> simp [jsKeys, isNull]
    have hg2 : ((jsKeys v).any (fun p => (jsGet v p).isNone || !(jsHasOwn v p))) = false := by
      rw [List.any_eq_false]
      intro p hp
      have h1 : (jsGet v p).isSome = true := jsGet_isSome_of_mem_keys hp
      have h2 : jsHasOwn v p = true := jsHasOwn_of_mem_keys hp
      simp [h2, Option.isNone_iff_eq_none]
      intro hn
      rw [hn] at h1
      exact Bool.noConfusion h1
    simp only [compareUpdateF, hg1, hg2, Bool.false_eq_true, if_false]
    exact compareScan_self _ v
      (fun p c hc ho => ih c (by have := jsGet_size_lt hc ho; omega)) (jsKeys v)

theorem compareUpdate_self (v : JVal) : compareUpdate v v = .ok (JVal.obj []) :=
  compareUpdateF_self (jsSize v) v le_rfl

theorem mem_jsAssign_keys {acc : List (String × JVal)} {k a : String} {v : JVal}
    (h : a ∈ (jsAssign acc k v).map Prod.fst) : a ∈ acc.map Prod.fst ∨ a = k := by
  rw [jsAssign_keys] at h
  by_cases hk : (hasOwnL acc k = true)
  · rw [if_pos hk] at h
    exact Or.inl h
  · rw [if_neg hk] at h
    rcases List.mem_append.mp h with h | h
    · exact Or.inl h
    · simp only [List.mem_singleton] at h
      exact Or.inr h

theorem settingsDiffGo_of_all_false {l r : List (String × JVal)} :
    ∀ props, (∀ p ∈ props, keyDiffers l r p = .ok false) →
      ∀ acc, settingsDiffGo l r acc props = .ok acc := by
  intro props
  induction props with
  | nil => intro h acc; rfl
  | cons q rest ih =>
    intro h acc
    have hq := h q (List.mem_cons_self q rest)
    have hrest : ∀ p ∈ rest, keyDiffers l r p = .ok false :=
      fun p hp => h p (List.mem_cons_of_mem q hp)
    cases hr : lookupJ r q with
    | none =>
      simp only [settingsDiffGo, hr]
      exact ih hrest acc
    | some rv =>
      cases hl : lookupJ l q with
      | none =>
        simp only [keyDiffers, hr, hl] at hq
        injection hq with hq
        exact Bool.noConfusion hq
      | some lv =>
        cases hcu : compareUpdate (JVal.obj [(q, lv)]) (JVal.obj [(q, rv)]) with
        | error e =>
          simp only [keyDiffers, hr, hl, hcu] at hq
          exact Except.noConfusion hq
        | ok res =>
          by_cases hk : (jsKeys res = [])
          · simp only [settingsDiffGo, hr, hl, hcu, if_pos hk]
            exact ih hrest acc
          · simp only [keyDiffers, hr, hl, hcu, if_neg hk] at hq
            injection hq with hq
            exact Bool.noConfusion hq

theorem settingsDiffGo_keyDiffers {l r : List (String × JVal)} :
    ∀ props acc d, settingsDiffGo l r acc props = .ok d →
      ∀ p ∈ props, ∃ bb, keyDiffers l r p = .ok bb := by
  intro props
  induction props with
  | nil => intro acc d hrun p hp; cases hp
  | cons q rest ih =>
    intro acc d hrun p hp
    cases hr : lookupJ r q with
    | none =>
      simp only [settingsDiffGo, hr] at hrun
      rcases List.mem_cons.mp hp with hpq | hp2
      · subst hpq
        exact ⟨false, by simp only [keyDiffers, hr]⟩
      · exact ih acc d hrun p hp2
    | some rv =>
      cases hl : lookupJ l q with
      | none =>
        simp only [settingsDiffGo, hr, hl] at hrun
        rcases List.mem_cons.mp hp with hpq | hp2
        · subst hpq
          exact ⟨true, by simp only [keyDiffers, hr, hl]⟩
        · exact ih _ d hrun p hp2
      | some lv =>
        cases hcu : compareUpdate (JVal.obj [(q, lv)]) (JVal.obj [(q, rv)]) with
        | error e =>
          simp only [settingsDiffGo, hr, hl, hcu] at hrun
          exact Except.noConfusion hrun
        | ok res =>
          by_cases hk : (jsKeys res = [])
          · simp only [settingsDiffGo, hr, hl, hcu, if_pos hk] at hrun
            rcases List.mem_cons.mp hp with hpq | hp2
            · subst hpq
              exact ⟨false, by simp only [keyDiffers, hr, hl, hcu, if_pos hk]⟩
            · exact ih acc d hrun p hp2
          · simp only [settingsDiffGo, hr, hl, hcu, if_neg hk] at hrun
            rcases List.mem_cons.mp hp with hpq | hp2
            · subst hpq
              exact ⟨true, by simp only [keyDiffers, hr, hl, hcu, if_neg hk]⟩
            · exact ih _ d hrun p hp2

theorem settingsDiffGo_lookup {l r : List (String × JVal)} :
    ∀ props acc d, settingsDiffGo l r acc props = .ok d → ∀ p,
      ((p ∈ props ∧ keyDiffers l r p = .ok true) → lookupJ d p = lookupJ r p) ∧
      (¬(p ∈ props ∧ keyDiffers l r p = .ok true) → lookupJ d p = lookupJ acc p) := by
  intro props
  induction props with
  | nil =>
    intro acc d hrun p
    injection hrun with hrun
    subst hrun
    constructor
    · rintro ⟨hp, -⟩
      cases hp
    · intro _
      rfl
  | cons q rest ih =>
    intro acc d hrun p
    cases hr : lookupJ r q with
    | none =>
      simp only [settingsDiffGo, hr] at hrun
      have hkd : keyDiffers l r q = .ok false := by simp only [keyDiffers, hr]
      have IH := ih acc d hrun p
      constructor
      · rintro ⟨hp, ht⟩
        rcases List.mem_cons.mp hp with hpq | hp2
        · subst hpq
          rw [hkd] at ht
          injection ht with ht
          exact Bool.noConfusion ht
        · exact IH.1 ⟨hp2, ht⟩
      · intro hn
        exact IH.2 (fun hc => hn ⟨List.mem_cons_of_mem q hc.1, hc.2⟩)
    | some rv =>
      cases hl : lookupJ l q with
      | none =>
        simp only [settingsDiffGo, hr, hl] at hrun
        have hkd : keyDiffers l r q = .ok true := by simp only [keyDiffers, hr, hl]
        have IH := ih (jsAssign acc q rv) d hrun p
        constructor
        · rintro ⟨hp, ht⟩
          rcases List.mem_cons.mp hp with hpq | hp2
          · subst hpq
            by_cases hcond : (p ∈ rest ∧ keyDiffers l r p = .ok true)
            · exact IH.1 hcond
            · rw [IH.2 hcond, lookupJ_jsAssign_self, hr]
          · exact IH.1 ⟨hp2, ht⟩
        · intro hn
          have hpq : p ≠ q := by
            intro he
            exact hn ⟨List.mem_cons.mpr (Or.inl he), by rw [he]; exact hkd⟩
          rw [IH.2 (fun hc => hn ⟨List.mem_cons_of_mem q hc.1, hc.2⟩)]
          exact lookupJ_jsAssign_ne acc rv hpq
      | some lv =>
        cases hcu : compareUpdate (JVal.obj [(q, lv)]) (JVal.obj [(q, rv)]) with
        | error e =>
          simp only [settingsDiffGo, hr, hl, hcu] at hrun
          exact Except.noConfusion hrun
        | ok res =>
          by_cases hk : (jsKeys res = [])
          · simp only [settingsDiffGo, hr, hl, hcu, if_pos hk] at hrun
            have hkd : keyDiffers l r q = .ok false := by
              simp only [keyDiffers, hr, hl, hcu, if_pos hk]
            have IH := ih acc d hrun p
            constructor
            · rintro ⟨hp, ht⟩
              rcases List.mem_cons.mp hp with hpq | hp2
              · subst hpq
                rw [hkd] at ht
                injection ht with ht
                exact Bool.noConfusion ht
              · exact IH.1 ⟨hp2, ht⟩
            · intro hn
              exact IH.2 (fun hc => hn ⟨List.mem_cons_of_mem q hc.1, hc.2⟩)
          · simp only [settingsDiffGo, hr, hl, hcu, if_neg hk] at hrun
            have hkd : keyDiffers l r q = .ok true := by
              simp only [keyDiffers, hr, hl, hcu, if_neg hk]
            have IH := ih (jsAssign acc q rv) d hrun p
            constructor
            · rintro ⟨hp, ht⟩
              rcases List.mem_cons.mp hp with hpq | hp2
              · subst hpq
                by_cases hcond : (p ∈ rest ∧ keyDiffers l r p = .ok true)
                · exact IH.1 hcond
                · rw [IH.2 hcond, lookupJ_jsAssign_self, hr]
              · exact IH.1 ⟨hp2, ht⟩
            · intro hn
              have hpq : p ≠ q := by
                intro he
                exact hn ⟨List.mem_cons.mpr (Or.inl he), by rw [he]; exact hkd⟩
              rw [IH.2 (fun hc => hn ⟨List.mem_cons_of_mem q hc.1, hc.2⟩)]
              exact lookupJ_jsAssign_ne acc rv hpq

theorem settingsDiffGo_nodup {l r : List (String × JVal)} :
    ∀ props acc d, (acc.map Prod.fst).Nodup → settingsDiffGo l r acc props = .ok d →
      (d.map Prod.fst).Nodup := by
  intro props
  induction props with
  | nil =>
    intro acc d hacc hrun
    injection hrun with hrun
    subst hrun
    exact hacc
  | cons q rest ih =>
    intro acc d hacc hrun
    cases hr : lookupJ r q with
    | none =>
      simp only [settingsDiffGo, hr] at hrun
      exact ih acc d hacc hrun
    | some rv =>
      cases hl : lookupJ l q with
      | none =>
        simp only [settingsDiffGo, hr, hl] at hrun
        exact ih _ d (jsAssign_keys_nodup hacc) hrun
      | some lv =>
        cases hcu : compareUpdate (JVal.obj [(q, lv)]) (JVal.obj [(q, rv)]) with
        | error e =>
          simp only [settingsDiffGo, hr, hl, hcu] at hrun
          exact Except.noConfusion hrun
        | ok res =>
          by_cases hk : (jsKeys res = [])
          · simp only [settingsDiffGo, hr, hl, hcu, if_pos hk] at hrun
            exact ih acc d hacc hrun
          · simp only [settingsDiffGo, hr, hl, hcu, if_neg hk] at hrun
            exact ih _ d (jsAssign_keys_nodup hacc) hrun

theorem settingsDiffGo_keys {l r : List (String × JVal)} :
    ∀ props acc d, settingsDiffGo l r acc props = .ok d →
      ∀ q ∈ d, q.1 ∈ acc.map Prod.fst ∨ q.1 ∈ props := by
  intro props
  induction props with
  | nil =>
    intro acc d hrun q hq
    injection hrun with hrun
    subst hrun
    exact Or.inl (List.mem_map.mpr ⟨q, hq, rfl⟩)
  | cons p0 rest ih =>
    intro acc d hrun q hq
    cases hr : lookupJ r p0 with
    | none =>
      simp only [settingsDiffGo, hr] at hrun
      rcases ih acc d hrun q hq with h | h
      · exact Or.inl h
      · exact Or.inr (List.mem_cons_of_mem p0 h)
    | some rv =>
      cases hl : lookupJ l p0 with
      | none =>
        simp only [settingsDiffGo, hr, hl] at hrun
        rcases ih _ d hrun q hq with h | h
        · rcases mem_jsAssign_keys h with h | h
          · exact Or.inl h
          · exact Or.inr (List.mem_cons.mpr (Or.inl h))
        · exact Or.inr (List.mem_cons_of_mem p0 h)
      | some lv =>
        cases hcu : compareUpdate (JVal.obj [(p0, lv)]) (JVal.obj [(p0, rv)]) with
        | error e =>
          simp only [settingsDiffGo, hr, hl, hcu] at hrun
          exact Except.noConfusion hrun
        | ok res =>
          by_cases hk : (jsKeys res = [])
          · simp only [settingsDiffGo, hr, hl, hcu, if_pos hk] at hrun
            rcases ih acc d hrun q hq with h | h
            · exact Or.inl h
            · exact Or.inr (List.mem_cons_of_mem p0 h)
          · simp only [settingsDiffGo, hr, hl, hcu, if_neg hk] at hrun
            rcases ih _ d hrun q hq with h | h
            · rcases mem_jsAssign_keys h with h | h
              · exact Or.inl h
              · exact Or.inr (List.mem_cons.mpr (Or.inl h))
            · exact Or.inr (List.mem_cons_of_mem p0 h)

theorem filterMap_congrJ {α β : Type} {f g : α → Option β} :
    ∀ l : List α, (∀ a ∈ l, f a = g a) → l.filterMap f = l.filterMap g := by
  intro l
  induction l with
  | nil => intro _; rfl
  | cons a rest ih =>
    intro h
    rw [List.filterMap_cons, List.filterMap_cons, h a (List.mem_cons_self a rest),
      ih (fun x hx => h x (List.mem_cons_of_mem a hx))]

theorem mergeDefaultsGo_eq (d l : List (String × JVal)) :
    ∀ ps acc, ps.Nodup → (∀ p ∈ ps, p ∉ acc.map Prod.fst) →
      mergeDefaultsGo d l acc ps = acc ++ ps.filterMap (mergeKeyPick d l) := by
  intro ps
  induction ps with
  | nil => intro acc _ _; simp [mergeDefaultsGo]
  | cons p rest ih =>
    intro acc hnd hacc
    rw [List.nodup_cons] at hnd
    cases hd : lookupJ d p with
    | none =>
      simp only [mergeDefaultsGo, hd]
      rw [List.filterMap_cons_none (show mergeKeyPick d l p = none by simp [mergeKeyPick, hd])]
      exact ih acc hnd.2 (fun q hq => hacc q (List.mem_cons_of_mem p hq))
    | some v =>
      by_cases hho : (hasOwnL l p = true)
      · simp only [mergeDefaultsGo, hd, if_pos hho]
        rw [List.filterMap_cons_none (show mergeKeyPick d l p = none by simp [mergeKeyPick, hd, hho])]
        exact ih acc hnd.2 (fun q hq => hacc q (List.mem_cons_of_mem p hq))
      · simp only [mergeDefaultsGo, hd, if_neg hho]
        have hnp : p ∉ acc.map Prod.fst := hacc p (List.mem_cons_self p rest)
        have hany : acc.any (fun q => q.1 == p) = false := by
          cases hb : acc.any (fun q => q.1 == p)
          · rfl
          · exact absurd (hasOwnL_iff_mem.mp hb) hnp
        have hja : jsAssign acc p v = acc ++ [(p, v)] := by
          simp only [jsAssign, hany]
          rw [if_neg]
          simp
        rw [hja]
        rw [List.filterMap_cons_some (show mergeKeyPick d l p = some (p, v) by simp [mergeKeyPick, hd, hho])]
        have hacc2 : ∀ q ∈ rest, q ∉ (acc ++ [(p, v)]).map Prod.fst := by
          intro q hq hmem
          rw [List.map_append] at hmem
          rcases List.mem_append.mp hmem with hmem | hmem
          · exact hacc q (List.mem_cons_of_mem p hq) hmem
          · simp only [List.map_cons, List.map_nil, List.mem_singleton] at hmem
            subst hmem
            exact hnd.1 hq
        rw [ih (acc ++ [(p, v)]) hnd.2 hacc2, List.append_assoc]
        rfl

theorem filterMap_keys_eq_filter (l : List (String × JVal)) :
    ∀ d : List (String × JVal), (d.map Prod.fst).Nodup →
      (d.map Prod.fst).filterMap (mergeKeyPick d l) =
      d.filter (fun q => !(hasOwnL l q.1)) := by
  intro d
  induction d with
  | nil => intro _; rfl
  | cons a rest ih =>
    intro hnd
    simp only [List.map_cons, List.nodup_cons] at hnd
    have hla : lookupJ (a :: rest) a.1 = some a.2 := by
      rw [lookupJ_cons, if_pos rfl]
    have hstep : ∀ p ∈ rest.map Prod.fst,
        mergeKeyPick (a :: rest) l p = mergeKeyPick rest l p := by
      intro p hp
      have hpa : a.1 ≠ p := fun he => hnd.1 (he ▸ hp)
      simp only [mergeKeyPick]
      rw [lookupJ_cons, if_neg hpa]
    by_cases hho : (hasOwnL l a.1 = true)
    · rw [List.map_cons,
        List.filterMap_cons_none (show mergeKeyPick (a :: rest) l a.1 = none by
          simp [mergeKeyPick, hla, hho]),
        List.filter_cons, if_neg (by simp [hho]), filterMap_congrJ _ hstep, ih hnd.2]
    · have hho2 : hasOwnL l a.1 = false := by
        cases hb : hasOwnL l a.1
        · rfl
        · exact absurd hb hho
      rw [List.map_cons,
        List.filterMap_cons_some (show mergeKeyPick (a :: rest) l a.1 = some (a.1, a.2) by
          simp [mergeKeyPick, hla, hho2]),
        List.filter_cons, if_pos (by simp [hho2]), filterMap_congrJ _ hstep, ih hnd.2,
        Prod.mk.eta]

theorem mergeDefaults_eq_filter (d l : List (String × JVal))
    (hnd : (d.map Prod.fst).Nodup) :
    mergeDefaults d l = d.filter (fun q => !(hasOwnL l q.1)) := by
  rw [mergeDefaults, mergeDefaultsGo_eq d l (d.map Prod.fst) [] hnd (by simp),
    List.nil_append, filterMap_keys_eq_filter l d hnd]

/-- C3: diffing any settings document against itself yields the empty
delta, and the recursive comparison of any value against itself reports
no difference at any nesting level. -/
theorem c3_diff_self_empty :
    (∀ X : List (String × JVal), settingsDiff X X = .ok []) ∧
    (∀ v : JVal, compareUpdate v v = .ok (JVal.obj [])) := by
  constructor
  · intro X
    rw [settingsDiff]
    apply settingsDiffGo_of_all_false
    intro p hp
    obtain ⟨v, hv⟩ := Option.isSome_iff_exists.mp (lookupJ_isSome_of_mem hp)
    simp only [keyDiffers, hv, compareUpdate_self]
    rfl
  · exact compareUpdate_self

/-- C4: applying the delta of diff(base, compare) to base by top-level
key-wise replacement and re-diffing the result against compare yields
the empty delta, whenever the first diff returned normally. -/
theorem c4_diff_apply_rediff_empty (l r d : List (String × JVal))
    (h : settingsDiff l r = .ok d) :
    settingsDiff (updateSettings l d) r = .ok [] := by
  have hnd : (d.map Prod.fst).Nodup := settingsDiffGo_nodup (r.map Prod.fst) [] d (by simp) h
  rw [settingsDiff]
  apply settingsDiffGo_of_all_false
  intro p hp
  obtain ⟨rv, hrv⟩ := Option.isSome_iff_exists.mp (lookupJ_isSome_of_mem hp)
  obtain ⟨bb, hbb⟩ := settingsDiffGo_keyDiffers (r.map Prod.fst) [] d h p hp
  have hlook := settingsDiffGo_lookup (r.map Prod.fst) [] d h p
  cases bb with
  | true =>
    have hd : lookupJ d p = lookupJ r p := hlook.1 ⟨hp, hbb⟩
    rw [hrv] at hd
    have hl2 : lookupJ (updateSettings l d) p = some rv := updateSettings_lookup_of_some hnd hd l
    simp only [keyDiffers, hrv, hl2, compareUpdate_self]
    rfl
  | false =>
    have hdn : lookupJ d p = lookupJ [] p := by
      apply hlook.2
      rintro ⟨-, hc⟩
      rw [hbb] at hc
      injection hc with hcc
      exact Bool.noConfusion hcc
    rw [lookupJ_nil] at hdn
    have hnm : p ∉ d.map Prod.fst := lookupJ_eq_none_iff.mp hdn
    have hl2 : lookupJ (updateSettings l d) p = lookupJ l p := updateSettings_lookup_not_mem hnm l
    cases hlv : lookupJ l p with
    | none =>
      simp only [keyDiffers, hrv, hlv] at hbb
      injection hbb with hbb2
      exact Bool.noConfusion hbb2
    | some lv =>
      cases hcu : compareUpdate (JVal.obj [(p, lv)]) (JVal.obj [(p, rv)]) with
      | error e =>
        simp only [keyDiffers, hrv, hlv, hcu] at hbb
        exact Except.noConfusion hbb
      | ok res =>
        by_cases hk : (jsKeys res = [])
        · have hl3 : lookupJ (updateSettings l d) p = some lv := hl2.trans hlv
          simp only [keyDiffers, hrv, hl3, hcu, if_pos hk]
        · simp only [keyDiffers, hrv, hlv, hcu, if_neg hk] at hbb
          injection hbb with hbb2
          exact Bool.noConfusion hbb2

/-- C4 witness: the end-to-end example of the spec, with convergence
after one application. -/
theorem c4_witness :
    settingsDiff [("theme", JVal.str "light"), ("font", JVal.num 12)] [("theme", JVal.str "dark")] =
      .ok [("theme", JVal.str "dark")] ∧
    settingsDiff
      (updateSettings [("theme", JVal.str "light"), ("font", JVal.num 12)] [("theme", JVal.str "dark")])
      [("theme", JVal.str "dark")] = .ok [] :=
  ⟨rfl, c4_diff_apply_rediff_empty _ _ _ rfl⟩

/-- C1 counterexample: base has x mapped to an object with key a,
compare has x mapped to the empty object, so a key exists on one side
and not the other inside the top-level key x, yet the delta is empty
rather than containing the whole value of x. -/
theorem c1_counterexample :
    settingsDiff [("x", JVal.obj [("a", JVal.num 1)])] [("x", JVal.obj [])] = .ok [] ∧
    jsHasOwn (JVal.obj [("a", JVal.num 1)]) "a" = true ∧
    jsHasOwn (JVal.obj []) "a" = false ∧
    JVal.obj [("a", JVal.num 1)] ≠ JVal.obj [] := by
  refine ⟨rfl, rfl, rfl, ?_⟩
  intro h
  injection h with h2
  exact List.noConfusion h2

/-- C1 (amended): the delta only ever has top-level granularity: every
delta entry is a whole top-level value of compare taken verbatim, and a
top-level key of compare absent from base puts that whole key/value in
the delta unconditionally; however, a nested difference is only
included when the recursion reports it, which fails when the differing
compare subtree has no enumerable keys (empty object, empty array, or
null). -/
theorem c1_top_level_granularity (l r d : List (String × JVal))
    (h : settingsDiff l r = .ok d) :
    (∀ p, lookupJ d p = none ∨ lookupJ d p = lookupJ r p) ∧
    (∀ p, p ∈ r.map Prod.fst → lookupJ l p = none → lookupJ d p = lookupJ r p) := by
  constructor
  · intro p
    have hlook := settingsDiffGo_lookup (r.map Prod.fst) [] d h p
    by_cases hc : (p ∈ r.map Prod.fst ∧ keyDiffers l r p = .ok true)
    · exact Or.inr (hlook.1 hc)
    · rw [hlook.2 hc, lookupJ_nil]
      exact Or.inl rfl
  · intro p hp hl
    obtain ⟨rv, hrv⟩ := Option.isSome_iff_exists.mp (lookupJ_isSome_of_mem hp)
    have hkd : keyDiffers l r p = .ok true := by simp only [keyDiffers, hrv, hl]
    exact (settingsDiffGo_lookup (r.map Prod.fst) [] d h p).1 ⟨hp, hkd⟩

/-- C1 witness: a top-level key of compare absent from base lands in
the delta verbatim. -/
theorem c1_witness :
    settingsDiff [("a", JVal.num 1)] [("a", JVal.num 1), ("b", JVal.num 2)] =
      .ok [("b", JVal.num 2)] ∧
    lookupJ [("b", JVal.num 2)] "b" = lookupJ [("a", JVal.num 1), ("b", JVal.num 2)] "b" :=
  ⟨rfl, (c1_top_level_granularity [("a", JVal.num 1)] [("a", JVal.num 1), ("b", JVal.num 2)]
    [("b", JVal.num 2)] rfl).2 "b" (by simp) rfl⟩

/-- C2 counterexample: an array value strictly unequal to the base
value (nonempty versus empty array), and a null value strictly unequal
to a number, both produce an empty delta instead of the whole compare
subtree: arrays are recursed into as objects and null takes the
recursion branch, so differences whose compare side has no enumerable
keys are dropped. -/
theorem c2_counterexample :
    compareUpdate (JVal.obj [("x", JVal.arr [JVal.num 1])]) (JVal.obj [("x", JVal.arr [])]) =
      .ok (JVal.obj []) ∧
    JVal.arr [] ≠ JVal.arr [JVal.num 1] ∧
    compareUpdate (JVal.obj [("y", JVal.num 5)]) (JVal.obj [("y", JVal.null)]) =
      .ok (JVal.obj []) ∧
    JVal.null ≠ JVal.num 5 := by
  refine ⟨rfl, ?_, rfl, ?_⟩
  · intro h
    injection h with h2
    exact List.noConfusion h2
  · intro h
    exact JVal.noConfusion h

/-- C2 (amended): for a key of compare whose value is a non-object
scalar (boolean, number or string) strictly unequal to the defined base
value, the whole current compare subtree is returned whenever the
comparison returns normally; values of typeof object (objects, arrays
and null) are instead handled by recursion. -/
theorem c2_scalar_inequality (base compare : JVal) (p : String) (c b d : JVal)
    (hmem : p ∈ jsKeys compare) (hc : jsGet compare p = some c)
    (ho : isObjectType c = false) (hb : jsGet base p = some b) (hbc : b ≠ c)
    (hrun : compareUpdate base compare = .ok d) : d = compare := by
  rw [compareUpdate] at hrun
  obtain ⟨n, hn⟩ : ∃ n, jsSize compare = n + 1 := by
    have := jsSize_pos compare
    exact ⟨jsSize compare - 1, by omega⟩
  rw [hn] at hrun
  rw [compareUpdateF] at hrun
  by_cases hg1 : ((!(jsKeys compare).isEmpty && isNull base) = true)
  · rw [if_pos hg1] at hrun
    exact Except.noConfusion hrun
  · rw [if_neg hg1] at hrun
    by_cases hg2 : ((jsKeys compare).any (fun p => (jsGet base p).isNone || !(jsHasOwn base p)) = true)
    · rw [if_pos hg2] at hrun
      injection hrun with h2
      exact h2.symm
    · rw [if_neg hg2] at hrun
      by_cases hg3 : ((!(jsKeys base).isEmpty && isNull compare) = true)
      · rw [if_pos hg3] at hrun
        exact Except.noConfusion hrun
      · rw [if_neg hg3] at hrun
        by_cases hg4 : ((jsKeys base).any (fun p => (jsGet compare p).isNone || !(jsHasOwn compare p)) = true)
        · rw [if_pos hg4] at hrun
          injection hrun with h2
          exact h2.symm
        · rw [if_neg hg4] at hrun
          exact compareScan_scalar _ base compare hc ho hb hbc (jsKeys compare) hmem d hrun

/-- C2 witness: two unequal numbers under the same key make the whole
compare object the delta. -/
theorem c2_witness :
    JVal.num 1 ≠ JVal.num 2 ∧
    (JVal.obj [("x", JVal.num 2)] : JVal) = JVal.obj [("x", JVal.num 2)] := by
  refine ⟨?_, ?_⟩
  · intro he
    injection he with he2
    omega
  · exact c2_scalar_inequality (JVal.obj [("x", JVal.num 1)]) (JVal.obj [("x", JVal.num 2)]) "x"
      (JVal.num 2) (JVal.num 1) (JVal.obj [("x", JVal.num 2)])
      (by simp [jsKeys]) rfl rfl rfl
      (fun he => by injection he with he2; omega) rfl

/-- C5: for a defaults document with unique keys, the defaults delta
contains exactly the key/value pairs whose key is present in defaults
but not an own key of the local document; a key present in both is
never in the delta, whatever the values. -/
theorem c5_merge_defaults_fills_gaps_only (d l : List (String × JVal))
    (hnd : (d.map Prod.fst).Nodup) :
    mergeDefaults d l = d.filter (fun q => !(hasOwnL l q.1)) ∧
    ∀ k v, ((k, v) ∈ mergeDefaults d l ↔ ((k, v) ∈ d ∧ hasOwnL l k = false)) := by
  have heq := mergeDefaults_eq_filter d l hnd
  refine ⟨heq, ?_⟩
  intro k v
  rw [heq, List.mem_filter]
  constructor
  · rintro ⟨h1, h2⟩
    refine ⟨h1, ?_⟩
    cases hb : hasOwnL l k
    · rfl
    · simp [hb] at h2
  · rintro ⟨h1, h2⟩
    exact ⟨h1, by simp [h2]⟩

/-- C5 witness: the two spec examples, mergeDefaults adds only the
missing key b and never overwrites an existing key. -/
theorem c5_witness :
    (([("a", JVal.num 1), ("b", JVal.num 2)].map (Prod.fst (β := JVal))).Nodup) ∧
    mergeDefaults [("a", JVal.num 1), ("b", JVal.num 2)] [("a", JVal.num 1)] = [("b", JVal.num 2)] ∧
    mergeDefaults [("a", JVal.num 1)] [("a", JVal.num 2)] = [] := by
  refine ⟨by decide, ?_, ?_⟩
  · rw [(c5_merge_defaults_fills_gaps_only [("a", JVal.num 1), ("b", JVal.num 2)]
      [("a", JVal.num 1)] (by decide)).1]
    rfl
  · rw [(c5_merge_defaults_fills_gaps_only [("a", JVal.num 1)]
      [("a", JVal.num 2)] (by decide)).1]
    rfl

/-- C6: a candidate is in the install/copy set exactly when it comes
from the candidate list, its package.json exists, and its id is either
not installed or installed with a version the comparator puts strictly
below the candidate version. -/
theorem c6_reconcile_iff (cmp : String → String → Int) (installed : List (String × String))
    (cands : List ExtensionCandidate) (c : ExtensionCandidate) :
    c ∈ installNewExtensions cmp installed cands ↔
      (c ∈ cands ∧ c.hasPackageFile = true ∧
        (lookupVersion installed (extId c) = none ∨
          ∃ lv, lookupVersion installed (extId c) = some lv ∧ cmp lv c.version < 0)) := by
  rw [installNewExtensions, List.mem_filter]
  constructor
  · rintro ⟨h1, h2⟩
    refine ⟨h1, ?_⟩
    cases hlk : lookupVersion installed (extId c) with
    | none =>
      simp only [hlk, Bool.and_true] at h2
      exact ⟨h2, Or.inl rfl⟩
    | some lv =>
      simp only [hlk, Bool.and_eq_true, decide_eq_true_eq] at h2
      exact ⟨h2.1, Or.inr ⟨lv, rfl, h2.2⟩⟩
  · rintro ⟨h1, h2, h3⟩
    refine ⟨h1, ?_⟩
    rcases h3 with h3 | ⟨lv, h4, h5⟩
    · simp only [h3, Bool.and_true]
      exact h2
    · simp only [h4, Bool.and_eq_true, decide_eq_true_eq]
      exact ⟨h2, h5⟩

/-- C7: merging a delta into the local document only adds or replaces
the delta keys: a key not in the delta keeps its value, and no existing
key is ever deleted. -/
theorem c7_update_settings_frame (l d : List (String × JVal)) (k : String) :
    (k ∉ d.map Prod.fst → lookupJ (updateSettings l d) k = lookupJ l k) ∧
    (hasOwnL l k = true → hasOwnL (updateSettings l d) k = true) := by
  constructor
  · intro h
    exact updateSettings_lookup_not_mem h l
  · intro h
    exact hasOwnL_iff_mem.mpr (updateSettings_keys_incl l k (hasOwnL_iff_mem.mp h))

/-- C7 witness: applying the delta theme=dark leaves the unrelated key
font untouched, and the theme key is still present afterwards. -/
theorem c7_witness :
    (("font" ∉ [("theme", JVal.str "dark")].map (Prod.fst (β := JVal))) ∧
      lookupJ (updateSettings [("theme", JVal.str "light"), ("font", JVal.num 12)]
        [("theme", JVal.str "dark")]) "font" =
      lookupJ [("theme", JVal.str "light"), ("font", JVal.num 12)] "font") ∧
    (hasOwnL [("theme", JVal.str "light"), ("font", JVal.num 12)] "theme" = true ∧
      hasOwnL (updateSettings [("theme", JVal.str "light"), ("font", JVal.num 12)]
        [("theme", JVal.str "dark")]) "theme" = true) :=
  ⟨⟨by decide,
    (c7_update_settings_frame [("theme", JVal.str "light"), ("font", JVal.num 12)]
      [("theme", JVal.str "dark")] "font").1 (by decide)⟩,
   ⟨rfl,
    (c7_update_settings_frame [("theme", JVal.str "light"), ("font", JVal.num 12)]
      [("theme", JVal.str "dark")] "theme").2 rfl⟩⟩

/-- C8 counterexample: when the defaults step throws, compareSettings
propagates the error and the remote-settings comparison is never
entered (the attempted flag is false), contrary to the claim that the
remote comparison is still attempted. -/
theorem c8_counterexample :
    compareSettingsRun (Except.error ()) (fun _ => Except.ok true) =
      (Except.error (), false) := rfl

/-- C8 (amended): a failure of the defaults-merging step aborts
compareSettings before the remote-settings comparison, which is
attempted exactly when the defaults step returns normally. -/
theorem c8_defaults_failure_blocks_remote {ε : Type} (e : ε) (rs : Unit → Except ε Bool) :
    compareSettingsRun (Except.error e) rs = (Except.error e, false) ∧
    ∀ a : Bool, (compareSettingsRun (Except.ok a) rs).2 = true := by
  constructor
  · rfl
  · intro a
    cases hrs : rs () with
    | error e2 => simp [compareSettingsRun, hrs]
    | ok b => simp [compareSettingsRun, hrs]

/-- C9 counterexample: in non-interactive mode with a configured but
invalid path, fetchExtensions raises the cannot-access error dialog
instead of abandoning silently, and choosing Reenter Path even leads to
an input prompt and a confirmed path. -/
theorem c9_counterexample :
    fetchExtensionsValidate (fun _ => false) false "bad" [] [] =
      ([UIEvent.errorDialog], PathOutcome.abandoned) ∧
    fetchExtensionsValidate (fun p => decide (p = "good")) false "bad" ["good"]
      [PathDialogChoice.reenterPath] =
      ([UIEvent.errorDialog, UIEvent.inputBox], PathOutcome.confirmed "good") :=
  ⟨rfl, rfl⟩

/-- C9 (amended): a non-interactive run with no configured path returns
immediately in the abandoned state with no prompt or dialog, for both
fetchExtensions and fetchSettings; a configured-but-invalid path still
raises the error dialog even in non-interactive mode. -/
theorem c9_unconfigured_noninteractive_silent (checkPath : String → Bool)
    (inputs : List String) (dialogs : List PathDialogChoice) :
    fetchExtensionsValidate checkPath false "" inputs dialogs = ([], PathOutcome.abandoned) ∧
    fetchSettingsValidate checkPath false "" inputs dialogs = ([], PathOutcome.abandoned) := by
  constructor
  · cases dialogs <;> cases inputs <;> rfl
  · cases dialogs <;> cases inputs <;> rfl

/-- C10: keys starting with fetchUserEnv are filtered from both
documents before comparison, so the computed delta never contains such
a key, and merging the delta leaves every such local key unchanged. -/
theorem c10_fetch_user_env_keys_protected (rl rr d : List (String × JVal))
    (h : compareRemoteSettingsRun rl rr = .ok d) :
    (∀ q ∈ d, startsWithFUE q.1 = false) ∧
    (∀ k, startsWithFUE k = true → lookupJ (updateSettings rl d) k = lookupJ rl k) := by
  have hkeys := settingsDiffGo_keys ((filterSettings rr).map Prod.fst) [] d h
  have hp1 : ∀ q ∈ d, startsWithFUE q.1 = false := by
    intro q hq
    rcases hkeys q hq with hk | hk
    · simp at hk
    · obtain ⟨q2, hq2, he⟩ := List.mem_map.mp hk
      rw [filterSettings] at hq2
      have hpred := (List.mem_filter.mp hq2).2
      rw [he] at hpred
      cases hb : startsWithFUE q.1
      · rfl
      · rw [hb] at hpred
        exact Bool.noConfusion hpred
  refine ⟨hp1, ?_⟩
  intro k hk
  have hnm : k ∉ d.map Prod.fst := by
    intro hmem
    obtain ⟨q, hq, he⟩ := List.mem_map.mp hmem
    have hf := hp1 q hq
    rw [he, hk] at hf
    exact Bool.noConfusion hf
  exact updateSettings_lookup_not_mem hnm rl

/-- C10 witness: a local fetchUserEnv key survives a reconciliation
pass untouched and the delta carries only the non-prefixed key. -/
theorem c10_witness :
    compareRemoteSettingsRun
      [("fetchUserEnv.remoteSettingsPath", JVal.str "p"), ("theme", JVal.str "light")]
      [("theme", JVal.str "dark"), ("fetchUserEnv.remoteExtensionPath", JVal.str "q")] =
      .ok [("theme", JVal.str "dark")] ∧
    startsWithFUE "fetchUserEnv.remoteSettingsPath" = true ∧
    lookupJ (updateSettings
        [("fetchUserEnv.remoteSettingsPath", JVal.str "p"), ("theme", JVal.str "light")]
        [("theme", JVal.str "dark")]) "fetchUserEnv.remoteSettingsPath" =
      lookupJ [("fetchUserEnv.remoteSettingsPath", JVal.str "p"), ("theme", JVal.str "light")]
        "fetchUserEnv.remoteSettingsPath" :=
  ⟨rfl, rfl,
    (c10_fetch_user_env_keys_protected
      [("fetchUserEnv.remoteSettingsPath", JVal.str "p"), ("theme", JVal.str "light")]
      [("theme", JVal.str "dark"), ("fetchUserEnv.remoteExtensionPath", JVal.str "q")]
      [("theme", JVal.str "dark")] rfl).2 "fetchUserEnv.remoteSettingsPath" rfl⟩
